import Mathlib

/-!
Verification development for the decagon training script (`main.py`).

The script loads a heterogeneous gene/drug graph, builds a dictionary of
sparse adjacency matrices and per-relation degree vectors, constructs a
minibatch iterator over edge types, trains a model, and evaluates
ROC-AUC / average precision / AP@k per relation with
`get_accuracy_scores`.

Matrices are embedded as total functions `ℕ → ℕ → ℕ` (entries 0/1) with
dimensions passed explicitly where a computation needs them.  Model
scores are embedded as `EFloat` (a rational or NaN), since the only
float behaviour the script depends on is NaN propagation and ordering.
-/

/-- Dense view of a sparse 0/1 matrix: entry lookup by (row, col). -/
def Mat : Type := ℕ → ℕ → ℕ

/-- Matrix transpose, as used by `x.transpose(copy=True)` in `main.py`. -/
def transposeM (m : Mat) : Mat := fun i j => m j i

/-- Column sum of a matrix over `nRows` rows: `np.array(adj.sum(axis=0)).squeeze()`
evaluated at column `j`. -/
def colSum (m : Mat) (nRows j : ℕ) : ℕ :=
  ((List.range nRows).map fun i => m i j).sum

/-- Row sum of a matrix over `nCols` columns, evaluated at row `i`. -/
def rowSum (m : Mat) (nCols i : ℕ) : ℕ :=
  ((List.range nCols).map fun j => m i j).sum

/-! ## Adjacency-store construction (`load_decagon_data`, lines 152-157)

`adj_mats_orig = {(0,0): [gene_adj, gene_adj.T], (0,1): [gene_drug_adj],
(1,0): [drug_gene_adj], (1,1): drug_drug_adj_list + [x.T for x in drug_drug_adj_list]}`
where `drug_gene_adj = gene_drug_adj.transpose(copy=True)` (line 64 / 127). -/

/-- The four node-type-pair slots of `adj_mats_orig`. -/
structure AdjMats where
  m00 : List Mat
  m01 : List Mat
  m10 : List Mat
  m11 : List Mat

/-- Embedding of the `adj_mats_orig` dictionary built at lines 152-157 of
`main.py`, given the loaded gene-gene matrix, the gene-drug matrix and the
drug-drug matrix list. -/
def buildAdjMats (geneAdj geneDrug : Mat) (ddList : List Mat) : AdjMats :=
  ⟨[geneAdj, transposeM geneAdj],
   [geneDrug],
   [transposeM geneDrug],
   ddList ++ ddList.map transposeM⟩

/-! ## Degree dictionary (`load_decagon_data`, lines 62, 76/147, 158-161)

`gene_degrees = np.array(gene_adj.sum(axis=0)).squeeze()`,
`drug_degrees_list = [np.array(adj.sum(axis=0)).squeeze() for adj in drug_drug_adj_list]`,
`degrees = {0: [gene_degrees, gene_degrees], 1: drug_degrees_list + drug_degrees_list}`. -/

/-- Column-sum degree vector of the gene-gene matrix (line 62/86). -/
def geneDegrees (geneAdj : Mat) (nGenes : ℕ) : ℕ → ℕ :=
  colSum geneAdj nGenes

/-- Per-relation column-sum degree vectors of the drug-drug matrices
(line 76/147). -/
def drugDegreesList (ddList : List Mat) (nDrugs : ℕ) : List (ℕ → ℕ) :=
  ddList.map fun m => colSum m nDrugs

/-- Embedding of the `degrees` dictionary built at lines 158-161 of
`main.py`: the pair (entry for node type 0, entry for node type 1). -/
def buildDegrees (geneAdj : Mat) (nGenes : ℕ) (ddList : List Mat) (nDrugs : ℕ) :
    List (ℕ → ℕ) × List (ℕ → ℕ) :=
  ⟨[geneDegrees geneAdj nGenes, geneDegrees geneAdj nGenes],
   drugDegreesList ddList nDrugs ++ drugDegreesList ddList nDrugs⟩

/-- Follows the claim's words, for comparison with `buildDegrees`: the
per-node sum of incident edges for a type-0 node, aggregated across all
relations touching node type 0 — both (0,0) relations, the (0,1) relation
(row incidence of `gene_drug_adj`) and the (1,0) relation (column incidence
of `drug_gene_adj = gene_drug_adj.T`, i.e. again the row sum of
`gene_drug_adj`). -/
def specAggDegreeGene (geneAdj geneDrug : Mat) (nGenes nDrugs v : ℕ) : ℕ :=
  colSum geneAdj nGenes v + colSum (transposeM geneAdj) nGenes v +
    rowSum geneDrug nDrugs v + rowSum geneDrug nDrugs v

/-! ## Dummy drug-drug adjacency generation (`load_decagon_data`, lines 68-75)

For every unordered pair `(d1, d2)` (in `itertools.combinations` order) the
loop draws `random.randint(0, 1000)` from Python's *global, unseeded*
`random` module and sets `mat[d1,d2] = mat[d2,d1] = 1` iff the draw is `< 3`.
The draw sequence is embedded as a stream `r : ℕ → ℕ` indexed by the
position of the pair in combinations order. -/

/-- Pairs `(d1, d2)` with `d1 < d2` over `range n`, in the row-major order
produced by `itertools.combinations(range(n), 2)`. -/
def combos (n : ℕ) : List (ℕ × ℕ) :=
  (List.product (List.range n) (List.range n)).filter fun p => decide (p.1 < p.2)

/-- Embedding of one drug-drug adjacency matrix of the dummy generator
(lines 71-74), as a function of the `random.randint(0, 1000)` draw stream. -/
def drugDrugDummy (n : ℕ) (r : ℕ → ℕ) : Mat := fun d1 d2 =>
  if (d1, d2) ∈ combos n then (if r (List.indexOf (d1, d2) (combos n)) < 3 then 1 else 0)
  else if (d2, d1) ∈ combos n then (if r (List.indexOf (d2, d1) (combos n)) < 3 then 1 else 0)
  else 0

/-! ## Scores with NaN (`get_accuracy_scores`, lines 199-241) -/

/-- A model score: a rational value or NaN (float scores in the script can be
NaN through overflow in the scoring function). -/
inductive EFloat where
  | nan : EFloat
  | val : ℚ → EFloat
deriving DecidableEq

/-- Embedding of `np.nan_to_num` on a single entry: NaN becomes 0, values
pass through (line 233). -/
def nanToNum : EFloat → ℚ
  | EFloat.nan => 0
  | EFloat.val q => q

/-- Python strict `>` on floats: NaN compares false against everything. -/
def egt : EFloat → EFloat → Bool
  | EFloat.val a, EFloat.val b => decide (b < a)
  | _, _ => false

/-- Stable descending insertion used to embed
`sorted(predicted, reverse=True, key=itemgetter(0))` (line 235): an element
drawn from earlier in the original list is inserted in front of every
element it does not compare strictly below, so equal keys keep insertion
order. -/
def insertDesc (x : EFloat × ℕ) : List (EFloat × ℕ) → List (EFloat × ℕ)
  | [] => [x]
  | y :: ys => if egt y.1 x.1 then y :: insertDesc x ys else x :: y :: ys

/-- Stable descending sort by score, the semantics of Python
`sorted(·, reverse=True, key=itemgetter(0))` on NaN-free keys. -/
def sortDesc (l : List (EFloat × ℕ)) : List (EFloat × ℕ) :=
  l.foldr insertDesc []

/-- The `predicted` list of `(score, edge_ind)` pairs accumulated at lines
220 and 229: scores in order, indexed consecutively from 0. -/
def predictedPairs (scores : List EFloat) : List (EFloat × ℕ) :=
  scores.enum.map fun p => (p.2, p.1)

/-- The ranked candidate indices handed to `rank_metrics.apk` (line 235):
second components of the stable descending sort of `predicted`. -/
def rankedIndices (scores : List EFloat) : List ℕ :=
  (sortDesc (predictedPairs scores)).map fun p => p.2

/-! ## Ranking metrics (sklearn semantics) -/

/-- Scores of the samples whose label equals `c`, in order: models the
label-based splitting sklearn's binary metrics perform on
`(y_true, y_score)`. -/
def scoresWithLabel (c : ℚ) (ys ss : List ℚ) : List ℚ :=
  ((ys.zip ss).filter fun p => decide (p.1 = c)).map fun p => p.2

/-- Contribution of one (positive, negative) score pair to the Mann-Whitney
statistic: 1 if the positive outranks the negative, 1/2 on a tie. -/
def pairScore (p n : ℚ) : ℚ :=
  if n < p then 1 else if p = n then 1/2 else 0

/-- Model of `sklearn.metrics.roc_auc_score` for binary 0/1 labels: the
Mann-Whitney U statistic normalised by (#positives * #negatives), which is
the documented value of the trapezoidal ROC area. -/
def rocAucScore (ys ss : List ℚ) : ℚ :=
  let pos := scoresWithLabel 1 ys ss
  let neg := scoresWithLabel 0 ys ss
  ((pos.map fun p => (neg.map fun n => pairScore p n).sum).sum) /
    ((pos.length : ℚ) * (neg.length : ℚ))

/-- Number of positive scores at or above threshold `t`. -/
def tpCount (pos : List ℚ) (t : ℚ) : ℕ :=
  (pos.filter fun s => decide (t ≤ s)).length

/-- Number of negative scores at or above threshold `t`. -/
def fpCount (neg : List ℚ) (t : ℚ) : ℕ :=
  (neg.filter fun s => decide (t ≤ s)).length

/-- Recall at threshold `t`. -/
def recallAt (pos : List ℚ) (t : ℚ) : ℚ :=
  (tpCount pos t : ℚ) / (pos.length : ℚ)

/-- Precision at threshold `t`. -/
def precAt (pos neg : List ℚ) (t : ℚ) : ℚ :=
  (tpCount pos t : ℚ) / ((tpCount pos t : ℚ) + (fpCount neg t : ℚ))

/-- Step sum `Σ (R_i - R_{i-1}) * P_i` over a descending threshold list,
threading the previous recall. -/
def apFold (pos neg : List ℚ) : ℚ → List ℚ → ℚ
  | _, [] => 0
  | prevR, t :: ts =>
      (recallAt pos t - prevR) * precAt pos neg t + apFold pos neg (recallAt pos t) ts

/-- Distinct thresholds in descending order, as `precision_recall_curve`
enumerates the distinct predicted scores from the highest down. -/
def thresholdsDesc (l : List ℚ) : List ℚ :=
  List.insertionSort (fun a b => b ≤ a) l.dedup

/-- Model of `sklearn.metrics.average_precision_score` for binary 0/1
labels: the non-interpolated step sum over the distinct score thresholds in
descending order. -/
def averagePrecisionScore (ys ss : List ℚ) : ℚ :=
  let pos := scoresWithLabel 1 ys ss
  let neg := scoresWithLabel 0 ys ss
  apFold pos neg 0 (thresholdsDesc (pos ++ neg))

/-- Modelled from the spec: `rank_metrics.apk` (decagon/utility/rank_metrics.py
is not under src/).  Per the spec, AP@k is the average precision computed
only over the top-k ranked candidates, where the relevant items are exactly
the members of `actual`: walking the top-k list, each hit contributes the
running precision, and the sum is normalised by `min |actual| k`. -/
def apkAux (actual : List ℕ) : List ℕ → ℕ → ℕ → ℚ
  | [], _, _ => 0
  | p :: ps, i, hits =>
      if p ∈ actual then ((hits : ℚ) + 1) / ((i : ℚ) + 1) + apkAux actual ps (i + 1) (hits + 1)
      else apkAux actual ps (i + 1) hits

/-- Modelled from the spec: AP@k over the `k` highest-ranked candidate
indices (see `apkAux`). -/
def apk (actual predicted : List ℕ) (k : ℕ) : ℚ :=
  if actual.isEmpty then 0
  else apkAux actual (predicted.take k) 0 0 / (min actual.length k : ℚ)

/-! ## The evaluator `get_accuracy_scores` (lines 199-241) -/

/-- The feed dictionary at evaluation time: the four keys
`get_accuracy_scores` overwrites (lines 200-203) plus the batch contents
carried over from the most recent training step. -/
structure FeedDict where
  dropout : ℚ
  batchEdgeTypeIdx : ℕ
  batchRowEdgeType : ℕ
  batchColEdgeType : ℕ
  batch : List (ℕ × ℕ)
deriving DecidableEq

/-- In-place `feed_dict.update` calls of lines 200-203: dropout forced to 0
and the edge-type selectors set; every other key (the batch) is untouched. -/
def evalFeedDict (fd : FeedDict) (etIdx etRow etCol : ℕ) : FeedDict :=
  ⟨0, etIdx, etRow, etCol, fd.batch⟩

/-- Overwrite only the dropout key of a feed dictionary. -/
def setDropout (fd : FeedDict) (d : ℚ) : FeedDict :=
  ⟨d, fd.batchEdgeTypeIdx, fd.batchRowEdgeType, fd.batchColEdgeType, fd.batch⟩

/-- The three metrics returned by `get_accuracy_scores`. -/
structure EvalResult where
  roc : ℚ
  aupr : ℚ
  apkSc : ℚ
deriving DecidableEq

/-- The assert of lines 217 / 227 run over an edge list: every `(u, v)` must
have `adj[u,v] == expected`, otherwise the evaluator raises with the assert
message. -/
def checkEdges (adj : Mat) (expected : ℕ) (msg : String) : List (ℕ × ℕ) → Except String Unit
  | [] => Except.ok ()
  | e :: rest =>
      if adj e.1 e.2 = expected then checkEdges adj expected msg rest
      else Except.error msg

/-- Scores of an edge list under the score matrix: `sigmoid(rec[u, v])` for
each `(u, v)` in order (lines 215 / 225).  The post-sigmoid score matrix is
the input, since only NaN propagation and the ordering of scores matter
downstream and sigmoid is strictly increasing and maps NaN to NaN. -/
def edgeScores (scoreMat : ℕ → ℕ → EFloat) (edges : List (ℕ × ℕ)) : List EFloat :=
  edges.map fun e => scoreMat e.1 e.2

/-- `labels_all = np.hstack([np.ones(len(preds)), np.zeros(len(preds_neg))])`
(line 234). -/
def labelsAll (p n : ℕ) : List ℚ :=
  List.replicate p (1 : ℚ) ++ List.replicate n (0 : ℚ)

/-- `preds_all = np.nan_to_num(np.hstack([preds, preds_neg]))`
(lines 232-233). -/
def predsAll (scoreMat : ℕ → ℕ → EFloat) (pos neg : List (ℕ × ℕ)) : List ℚ :=
  (edgeScores scoreMat pos ++ edgeScores scoreMat neg).map nanToNum

/-- The pure metric computation of lines 232-241 from the score matrix and
the positive / negative edge lists: ROC-AUC and average precision over the
sanitised score vector with 1/0 labels, and AP@k with `k = 50` over the
stably ranked pooled candidate indices, relevant set
`actual = [0, ..., |pos| - 1]`. -/
def metricsFromRec (scoreMat : ℕ → ℕ → EFloat) (pos neg : List (ℕ × ℕ)) : EvalResult :=
  ⟨rocAucScore (labelsAll pos.length neg.length) (predsAll scoreMat pos neg),
   averagePrecisionScore (labelsAll pos.length neg.length) (predsAll scoreMat pos neg),
   apk (List.range pos.length)
     (rankedIndices (edgeScores scoreMat pos ++ edgeScores scoreMat neg)) 50⟩

/-- Embedding of `get_accuracy_scores` (lines 199-241): updates the shared
feed dictionary (dropout forced to 0, edge-type selectors set), obtains the
score matrix from the external model at that feed dictionary, checks every
positive edge against `adj == 1` and every negative edge against `adj == 0`
(raising `Problem 1` / `Problem 0` on the first violation), and otherwise
returns the three metrics.  The updated feed dictionary is returned first,
modelling the in-place mutation of the global `feed_dict`. -/
def get_accuracy_scores (scoreFn : FeedDict → ℕ → ℕ → EFloat) (fd : FeedDict)
    (etIdx etRow etCol : ℕ) (adj : Mat) (pos neg : List (ℕ × ℕ)) :
    FeedDict × Except String EvalResult :=
  let fd2 := evalFeedDict fd etIdx etRow etCol
  match checkEdges adj 1 "Problem 1" pos with
  | Except.error m => (fd2, Except.error m)
  | Except.ok _ =>
      match checkEdges adj 0 "Problem 0" neg with
      | Except.error m => (fd2, Except.error m)
      | Except.ok _ => (fd2, Except.ok (metricsFromRec (scoreFn fd2) pos neg))

/-- Ordering the ranked `predicted` list satisfies: a pair comes before
another iff its score is strictly larger, or the scores are equal and it was
appended earlier (smaller `edge_ind`) — descending with ties broken by
insertion order. -/
def rankedBefore (a b : EFloat × ℕ) : Prop :=
  egt a.1 b.1 = true ∨ (a.1 = b.1 ∧ a.2 < b.2)

/-! ## Edge split partitioner (modelled from the spec)

`EdgeMinibatchIterator` (decagon/deep/minibatch.py), which builds the
train/validation/test edge splits and samples negatives, is not under src/;
only its construction site (lines 313-320 of `main.py`) is.  The following
definitions are modelled from spec section 4.2. -/

/-- Modelled from the spec: the per-relation edge split — three positive
sets and three negative sets (spec section 3, "Edge Split"). -/
structure EdgeSplit where
  trainPos : List (ℕ × ℕ)
  valPos : List (ℕ × ℕ)
  testPos : List (ℕ × ℕ)
  trainNeg : List (ℕ × ℕ)
  valNeg : List (ℕ × ℕ)
  testNeg : List (ℕ × ℕ)
deriving DecidableEq

/-- Modelled from the spec: positive-edge extraction (spec section 4.2 step
1) — all pairs with `adj[u,v] == 1`, restricted to the upper triangle
`u < v` when the node-type pair is symmetric. -/
def extractEdges (adj : Mat) (nr nc : ℕ) (symmetric : Bool) : List (ℕ × ℕ) :=
  (List.product (List.range nr) (List.range nc)).filter fun e =>
    decide (adj e.1 e.2 = 1) && (!symmetric || decide (e.1 < e.2))

/-- Modelled from the spec: one step of a linear congruential generator,
standing for the fixed-seed PRNG of spec section 4.2 step 2. -/
def lcgStep (s : ℕ) : ℕ := (1103515245 * s + 12345) % 2147483648

/-- Modelled from the spec: the i-th pseudo-random key drawn from the
seed. -/
def lcgKey (seed i : ℕ) : ℕ := lcgStep^[i + 1] seed

/-- Modelled from the spec: the deterministic seeded shuffle of spec section
4.2 step 2 — reorder the edges by their pseudo-random keys (ties broken by
original position), a permutation depending only on the seed. -/
def shuffleEdges (seed : ℕ) (l : List (ℕ × ℕ)) : List (ℕ × ℕ) :=
  ((l.enum.map fun p => ((lcgKey seed p.1, p.1), p.2)).insertionSort
    fun a b => a.1.1 < b.1.1 ∨ (a.1.1 = b.1.1 ∧ a.1.2 ≤ b.1.2)).map fun p => p.2

/-- Modelled from the spec: bounded rejection sampling of negatives (spec
section 4.2 step 4) — draw candidates from the stream, accept a pair iff
`adj[u,v] == 0` and it is not already selected in this split's negative
set, and give up (`none`, the `SamplingExhaustedError` signal) when the
retry bound is exhausted. -/
def sampleNegatives (adj : Mat) (stream : ℕ → ℕ × ℕ) :
    ℕ → ℕ → ℕ → List (ℕ × ℕ) → Option (List (ℕ × ℕ))
  | _, _, 0, acc => some acc.reverse
  | 0, _, _ + 1, _ => none
  | fuel + 1, idx, need + 1, acc =>
      if adj (stream idx).1 (stream idx).2 = 0 ∧ stream idx ∉ acc then
        sampleNegatives adj stream fuel (idx + 1) need (stream idx :: acc)
      else
        sampleNegatives adj stream fuel (idx + 1) (need + 1) acc

/-- Modelled from the spec: the shuffled positive edge list of one
relation. -/
def posEdgesOf (adj : Mat) (nr nc : ℕ) (symmetric : Bool) (seed : ℕ) : List (ℕ × ℕ) :=
  shuffleEdges seed (extractEdges adj nr nc symmetric)

/-- Modelled from the spec: `n_val = n_test = floor(f * |edges|)` with the
held-out fraction `f = fNum / fDen` (e.g. 1/20 for 0.05). -/
def nValOf (fNum fDen n : ℕ) : ℕ := fNum * n / fDen

/-- Modelled from the spec: the full per-relation split (spec section 4.2):
shuffle the extracted positives with the seed, hold out `n_val` validation
and `n_test = n_val` test positives, keep the rest as training positives
(no connectivity-preserving exclusions), and rejection-sample one negative
set of matching cardinality per split; fails (`none`) when any negative
sampling run exhausts its bound. -/
def makeEdgeSplit (adj : Mat) (nr nc : ℕ) (symmetric : Bool) (seed fNum fDen : ℕ)
    (streamTrain streamVal streamTest : ℕ → ℕ × ℕ) (fuel : ℕ) : Option EdgeSplit :=
  match sampleNegatives adj streamTrain fuel 0
          ((posEdgesOf adj nr nc symmetric seed).drop
            (nValOf fNum fDen (posEdgesOf adj nr nc symmetric seed).length +
              nValOf fNum fDen (posEdgesOf adj nr nc symmetric seed).length)).length [],
        sampleNegatives adj streamVal fuel 0
          ((posEdgesOf adj nr nc symmetric seed).take
            (nValOf fNum fDen (posEdgesOf adj nr nc symmetric seed).length)).length [],
        sampleNegatives adj streamTest fuel 0
          (((posEdgesOf adj nr nc symmetric seed).drop
            (nValOf fNum fDen (posEdgesOf adj nr nc symmetric seed).length)).take
            (nValOf fNum fDen (posEdgesOf adj nr nc symmetric seed).length)).length [] with
  | some tn, some vn, some sn =>
      some ⟨(posEdgesOf adj nr nc symmetric seed).drop
              (nValOf fNum fDen (posEdgesOf adj nr nc symmetric seed).length +
                nValOf fNum fDen (posEdgesOf adj nr nc symmetric seed).length),
            (posEdgesOf adj nr nc symmetric seed).take
              (nValOf fNum fDen (posEdgesOf adj nr nc symmetric seed).length),
            ((posEdgesOf adj nr nc symmetric seed).drop
              (nValOf fNum fDen (posEdgesOf adj nr nc symmetric seed).length)).take
              (nValOf fNum fDen (posEdgesOf adj nr nc symmetric seed).length),
            tn, vn, sn⟩
  | _, _, _ => none

/-! ## Training loop (lines 357-397)

The module-level loop: for each of `FLAGS.epochs` epochs, `minibatch.shuffle()`
then `while not minibatch.end():` draw the next minibatch feed dict, run one
optimizer step, and if `itr % PRINT_PROGRESS_EVERY == 0` evaluate validation
metrics with `minibatch.idx2edge_type[minibatch.current_edge_type_idx]` — the
relation of the batch just drawn; after all epochs, test metrics for every
edge-type index `0 .. num_edge_types - 1`. -/

/-- Observable events of the training script tail. -/
inductive TrainEvent where
  | shuffleEv : TrainEvent
  | drawBatch : ℕ × ℕ × ℕ → TrainEvent
  | optStep : TrainEvent
  | valEval : ℕ × ℕ × ℕ → TrainEvent
  | testEval : ℕ → TrainEvent
deriving DecidableEq

/-- `PRINT_PROGRESS_EVERY` (line 302). -/
def printProgressEvery : ℕ := 150

/-- Embedding of the inner while loop of lines 361-386: while batches
remain, draw the next minibatch, run one optimization step, and when
`itr % printEvery == 0` evaluate validation metrics for the relation of the
batch just drawn; `itr` increments per iteration.  The remaining relation
list stands for the minibatch iterator state: `EdgeMinibatchIterator`
(decagon/deep/minibatch.py) is not under src/, and per spec section 4.3
`shuffle()` fixes the epoch's batch sequence, `next_minibatch` yields the
next batch recording its relation as current, and `end()` is true exactly
when the sequence is drained. -/
def epochLoop (printEvery : ℕ) : ℕ → List (ℕ × ℕ × ℕ) → List TrainEvent
  | _, [] => []
  | itr, rel :: rest =>
      TrainEvent.drawBatch rel :: TrainEvent.optStep ::
        ((if itr % printEvery = 0 then [TrainEvent.valEval rel] else []) ++
          epochLoop printEvery (itr + 1) rest)

/-- Embedding of the full training tail (lines 357-397): per epoch one
`shuffle()` followed by the inner loop starting at `itr = 0`; after all
epochs, test evaluation for every edge-type index in order. -/
def runTraining (epochs : ℕ) (batches : ℕ → List (ℕ × ℕ × ℕ))
    (numEdgeTypes : ℕ) : List TrainEvent :=
  ((List.range epochs).flatMap fun e =>
    TrainEvent.shuffleEv :: epochLoop printProgressEvery 0 (batches e)) ++
  (List.range numEdgeTypes).map TrainEvent.testEval

/-- Declarative epoch trace, for comparison with the operational loop: one
draw and one optimization step per enumerated batch, plus a validation
evaluation for that batch's relation exactly at iterations divisible by
`printEvery`. -/
def epochSpec (printEvery : ℕ) (bs : List (ℕ × ℕ × ℕ)) : List TrainEvent :=
  bs.enum.flatMap fun p =>
    TrainEvent.drawBatch p.2 :: TrainEvent.optStep ::
      (if p.1 % printEvery = 0 then [TrainEvent.valEval p.2] else [])

/-! ## Concrete instances used by witnesses and counterexamples -/

/-- Gene-gene matrix with no edges (1 gene). -/
def ga0 : Mat := fun _ _ => 0

/-- Gene-drug matrix with a single gene-drug edge (1 gene, 1 drug). -/
def gd0 : Mat := fun _ _ => 1

/-- A drug-drug matrix for small instances. -/
def matW : Mat := fun i j => i * j

/-- A score function that always returns NaN. -/
def scoreFnW : FeedDict → ℕ → ℕ → EFloat := fun _ _ _ => EFloat.nan

/-- A feed dictionary with nonzero training dropout. -/
def fdW : FeedDict := ⟨1/2, 7, 1, 1, [(0, 1)]⟩

/-- Adjacency with the single edge (0, 1). -/
def adjW : Mat := fun u v => if u = 0 ∧ v = 1 then 1 else 0

/-- Score matrix of the spec's synthetic ranking example: positives
(0,1) ↦ 0.9, (1,2) ↦ 0.8 and negatives (0,2) ↦ 0.1, (2,0) ↦ 0.2. -/
def scoreMatW : ℕ → ℕ → EFloat := fun u v =>
  if u = 0 ∧ v = 1 then EFloat.val (9/10)
  else if u = 1 ∧ v = 2 then EFloat.val (4/5)
  else if u = 0 ∧ v = 2 then EFloat.val (1/10)
  else if u = 2 ∧ v = 0 then EFloat.val (1/5)
  else EFloat.val 0

/-- Positive edges of the spec's synthetic ranking example. -/
def posW : List (ℕ × ℕ) := [(0, 1), (1, 2)]

/-- Negative edges of the spec's synthetic ranking example. -/
def negW : List (ℕ × ℕ) := [(0, 2), (2, 0)]


/-- Symmetric 2-node adjacency with the single undirected edge 0-1. -/
def adjC1 : Mat := fun u v => if (u = 0 ∧ v = 1) ∨ (u = 1 ∧ v = 0) then 1 else 0

/-- A candidate stream that always proposes the non-edge (0, 0). -/
def stC1 : ℕ → ℕ × ℕ := fun _ => (0, 0)


/-- Expected split of the witness instance: all positives train, one
sampled negative. -/
def sC1 : EdgeSplit := ⟨[(0, 1)], [], [], [(0, 0)], [], []⟩

/-! ## Helper lemmas -/

/-- Success characterisation of the assert loop. -/
theorem checkEdges_ok_iff (adj : Mat) (expected : ℕ) (msg : String) (l : List (ℕ × ℕ)) :
    checkEdges adj expected msg l = Except.ok () ↔ ∀ e ∈ l, adj e.1 e.2 = expected := by
  induction l with
  | nil => simp [checkEdges]
  | cons e rest ih =>
      by_cases h : adj e.1 e.2 = expected
      · simp [checkEdges, h, ih]
      · simp [checkEdges, h]

/-- The assert loop either succeeds with `()` or raises its message. -/
theorem checkEdges_cases (adj : Mat) (expected : ℕ) (msg : String) (l : List (ℕ × ℕ)) :
    checkEdges adj expected msg l = Except.ok () ∨ checkEdges adj expected msg l = Except.error msg := by
  induction l with
  | nil => exact Or.inl rfl
  | cons e rest ih =>
      by_cases h : adj e.1 e.2 = expected
      · simpa [checkEdges, h] using ih
      · exact Or.inr (by simp [checkEdges, h])

/-! ## Claim theorems: C7, C8, C10, C2 -/

/-- C7: in the constructed adjacency store, every self node-type pair stores
each relation matrix together with its transpose — for (0,0), entry 1 is the
transpose of entry 0; for (1,1) with `L` base relations, entry `k + L` is
the transpose of entry `k` for every `k < L`; and the (1,0) matrix is the
transpose of the (0,1) matrix. -/
theorem C7_adjacency_transpose_pairs (geneAdj geneDrug : Mat) (ddList : List Mat) :
    (buildAdjMats geneAdj geneDrug ddList).m00.get? 1 =
      ((buildAdjMats geneAdj geneDrug ddList).m00.get? 0).map transposeM ∧
    (∀ k, k < ddList.length →
      (buildAdjMats geneAdj geneDrug ddList).m11.get? (k + ddList.length) =
        ((buildAdjMats geneAdj geneDrug ddList).m11.get? k).map transposeM) ∧
    (buildAdjMats geneAdj geneDrug ddList).m10 =
      (buildAdjMats geneAdj geneDrug ddList).m01.map transposeM := by
  refine ⟨rfl, ?_, rfl⟩
  intro k hk
  have h1 : (ddList ++ ddList.map transposeM).get? (k + ddList.length) =
      (ddList.map transposeM).get? k := by
    rw [List.get?_append_right (by omega)]
    congr 1
    omega
  have h2 : (ddList ++ ddList.map transposeM).get? k = ddList.get? k :=
    List.get?_append hk
  simp only [buildAdjMats, h1, h2, List.get?_map]

/-- Witness for C7 at a concrete instance (one drug-drug relation, `k = 0`). -/
theorem C7_adjacency_transpose_pairs_witness :
    (buildAdjMats (fun i j => i + j) (fun i j => i * j) [fun i j => i + 2 * j]).m11.get?
        (0 + [fun i j : ℕ => i + 2 * j].length) =
      ((buildAdjMats (fun i j => i + j) (fun i j => i * j)
        [fun i j => i + 2 * j]).m11.get? 0).map transposeM :=
  (C7_adjacency_transpose_pairs (fun i j => i + j) (fun i j => i * j)
    [fun i j => i + 2 * j]).2.1 0 (by decide)

/-- C8 (supporting theorem for the code bug): the dummy drug-drug adjacency
depends on the draws of Python's `random` module, which `main.py` never
seeds (only `np.random.seed(0)` is called): two different draw streams give
two different adjacency matrices, so two independent runs need not produce
identical adjacency matrices. -/
theorem C8_unseeded_randint_changes_adjacency :
    drugDrugDummy 2 (fun _ => 0) 0 1 = 1 ∧ drugDrugDummy 2 (fun _ => 5) 0 1 = 0 := by
  constructor <;> decide

/-- C10: every call to the evaluator forces dropout to 0 in the feed
dictionary before the model is scored: the feed dictionary the score
function receives has dropout 0, the metrics are insensitive to the
incoming dropout value, and the call overwrites the shared feed dictionary
(the returned dictionary is the updated one, with dropout 0 and the batch
carried over). -/
theorem C10_eval_forces_dropout_zero (scoreFn : FeedDict → ℕ → ℕ → EFloat)
    (fd : FeedDict) (etIdx etRow etCol : ℕ) (adj : Mat) (pos neg : List (ℕ × ℕ)) (d : ℚ) :
    (get_accuracy_scores scoreFn fd etIdx etRow etCol adj pos neg).1.dropout = 0 ∧
    (get_accuracy_scores scoreFn fd etIdx etRow etCol adj pos neg).1 =
      evalFeedDict fd etIdx etRow etCol ∧
    (evalFeedDict fd etIdx etRow etCol).batch = fd.batch ∧
    get_accuracy_scores scoreFn (setDropout fd d) etIdx etRow etCol adj pos neg =
      get_accuracy_scores scoreFn fd etIdx etRow etCol adj pos neg := by
  refine ⟨?_, ?_, rfl, ?_⟩
  · cases h1 : checkEdges adj 1 "Problem 1" pos <;>
      cases h2 : checkEdges adj 0 "Problem 0" neg <;>
      simp [get_accuracy_scores, h1, h2, evalFeedDict]
  · cases h1 : checkEdges adj 1 "Problem 1" pos <;>
      cases h2 : checkEdges adj 0 "Problem 0" neg <;>
      simp [get_accuracy_scores, h1, h2]
  · have hfd : evalFeedDict (setDropout fd d) etIdx etRow etCol =
        evalFeedDict fd etIdx etRow etCol := rfl
    simp only [get_accuracy_scores, hfd]

/-- C2: the evaluator fails exactly when some supplied positive pair is
absent from the adjacency matrix or some supplied negative pair is present
in it; it never silently ignores such an inconsistency. -/
theorem C2_evaluator_raises_on_corrupt_edges (scoreFn : FeedDict → ℕ → ℕ → EFloat)
    (fd : FeedDict) (etIdx etRow etCol : ℕ) (adj : Mat) (pos neg : List (ℕ × ℕ)) :
    (get_accuracy_scores scoreFn fd etIdx etRow etCol adj pos neg).2.isOk = true ↔
      (∀ e ∈ pos, adj e.1 e.2 = 1) ∧ (∀ e ∈ neg, adj e.1 e.2 = 0) := by
  constructor
  · intro h
    rcases checkEdges_cases adj 1 "Problem 1" pos with h1 | h1
    · rcases checkEdges_cases adj 0 "Problem 0" neg with h2 | h2
      · exact ⟨(checkEdges_ok_iff adj 1 "Problem 1" pos).mp h1,
          (checkEdges_ok_iff adj 0 "Problem 0" neg).mp h2⟩
      · exfalso
        simp [get_accuracy_scores, h1, h2, Except.isOk, Except.toBool] at h
    · exfalso
      simp [get_accuracy_scores, h1, Except.isOk, Except.toBool] at h
  · rintro ⟨h1, h2⟩
    have hc1 : checkEdges adj 1 "Problem 1" pos = Except.ok () :=
      (checkEdges_ok_iff adj 1 "Problem 1" pos).mpr h1
    have hc2 : checkEdges adj 0 "Problem 0" neg = Except.ok () :=
      (checkEdges_ok_iff adj 0 "Problem 0" neg).mpr h2
    simp [get_accuracy_scores, hc1, hc2, Except.isOk, Except.toBool]

/-! ## Claim theorems: C6 (corrected), C3 -/

/-- C6 counterexample: with one gene, one drug, no gene-gene edges and a
single gene-drug edge, the degree vector the code exposes for node type 0
gives node 0 the value 0, while the per-node sum of incident edges
aggregated across all relations touching node type 0 gives it 2: the two
disagree, so the exposed degrees are not the aggregated incident-edge
sums. -/
theorem C6_degrees_counterexample :
    (buildDegrees ga0 1 [] 1).1.headI 0 = 0 ∧
    specAggDegreeGene ga0 gd0 1 1 0 = 2 ∧
    (buildDegrees ga0 1 [] 1).1.headI 0 ≠ specAggDegreeGene ga0 gd0 1 1 0 :=
  ⟨by decide, by decide, by decide⟩

/-- C6 amended: for each node type the code exposes a list of per-relation
degree vectors covering only the self node-type pair's relations — for type
0 the column-sum vector of the gene-gene matrix listed twice, and for type 1
the column-sum vector of each drug-drug matrix with the whole list repeated
once for the transpose relations; cross-type relations contribute nothing,
and the vectors are computed once at construction. -/
theorem C6_degrees_amended (geneAdj : Mat) (nGenes : ℕ) (ddList : List Mat) (nDrugs : ℕ) :
    (buildDegrees geneAdj nGenes ddList nDrugs).1 =
      [geneDegrees geneAdj nGenes, geneDegrees geneAdj nGenes] ∧
    (buildDegrees geneAdj nGenes ddList nDrugs).2.length = 2 * ddList.length ∧
    (∀ k, k < ddList.length →
      (buildDegrees geneAdj nGenes ddList nDrugs).2.get? k =
        (ddList.get? k).map fun m => colSum m nDrugs) ∧
    (∀ k, k < ddList.length →
      (buildDegrees geneAdj nGenes ddList nDrugs).2.get? (k + ddList.length) =
        (buildDegrees geneAdj nGenes ddList nDrugs).2.get? k) := by
  have hlen : (drugDegreesList ddList nDrugs).length = ddList.length := by
    simp [drugDegreesList]
  refine ⟨rfl, ?_, ?_, ?_⟩
  · simp [buildDegrees, drugDegreesList]
    ring
  · intro k hk
    have h2 : (drugDegreesList ddList nDrugs ++ drugDegreesList ddList nDrugs).get? k =
        (drugDegreesList ddList nDrugs).get? k :=
      List.get?_append (by omega)
    show (drugDegreesList ddList nDrugs ++ drugDegreesList ddList nDrugs).get? k = _
    rw [h2, drugDegreesList, List.get?_map]
  · intro k hk
    have h1 : (drugDegreesList ddList nDrugs ++ drugDegreesList ddList nDrugs).get?
        (k + ddList.length) = (drugDegreesList ddList nDrugs).get? k := by
      rw [List.get?_append_right (by omega)]
      congr 1
      omega
    have h2 : (drugDegreesList ddList nDrugs ++ drugDegreesList ddList nDrugs).get? k =
        (drugDegreesList ddList nDrugs).get? k :=
      List.get?_append (by omega)
    simp only [buildDegrees, h1, h2]

/-- Witness for the amended C6 at a concrete instance (one drug-drug
relation, `k = 0`). -/
theorem C6_degrees_amended_witness :
    (buildDegrees ga0 1 [matW] 1).2.get? (0 + [matW].length) =
      (buildDegrees ga0 1 [matW] 1).2.get? 0 :=
  (C6_degrees_amended ga0 1 [matW] 1).2.2.2 0 (by decide)

/-- C3: any NaN entries in the combined positive/negative score vector are
replaced with 0 before the ROC-AUC and average-precision computations: when
the supplied edges are consistent with the adjacency matrix the evaluator
returns metrics (it does not raise, even if scores are NaN), the label
vector keeps one entry per positive and per negative score, and every NaN
position of the raw score vector becomes 0 in the sanitised vector the
metrics are computed from. -/
theorem C3_nan_scores_sanitized (scoreFn : FeedDict → ℕ → ℕ → EFloat) (fd : FeedDict)
    (etIdx etRow etCol : ℕ) (adj : Mat) (pos neg : List (ℕ × ℕ))
    (hpos : ∀ e ∈ pos, adj e.1 e.2 = 1) (hneg : ∀ e ∈ neg, adj e.1 e.2 = 0) :
    (get_accuracy_scores scoreFn fd etIdx etRow etCol adj pos neg).2 =
      Except.ok (metricsFromRec (scoreFn (evalFeedDict fd etIdx etRow etCol)) pos neg) ∧
    (labelsAll pos.length neg.length).length = pos.length + neg.length ∧
    (∀ i, (edgeScores (scoreFn (evalFeedDict fd etIdx etRow etCol)) pos ++
        edgeScores (scoreFn (evalFeedDict fd etIdx etRow etCol)) neg).get? i =
          some EFloat.nan →
      (predsAll (scoreFn (evalFeedDict fd etIdx etRow etCol)) pos neg).get? i = some 0) := by
  refine ⟨?_, ?_, ?_⟩
  · have hc1 := (checkEdges_ok_iff adj 1 "Problem 1" pos).mpr hpos
    have hc2 := (checkEdges_ok_iff adj 0 "Problem 0" neg).mpr hneg
    simp [get_accuracy_scores, hc1, hc2]
  · simp [labelsAll]
  · intro i hi
    show ((edgeScores (scoreFn (evalFeedDict fd etIdx etRow etCol)) pos ++
        edgeScores (scoreFn (evalFeedDict fd etIdx etRow etCol)) neg).map nanToNum).get? i =
      some 0
    rw [List.get?_map, hi]
    rfl

/-- Witness for C3: a batch whose scores are all NaN, with edges consistent
with the adjacency, is evaluated without raising and with NaN sanitised to
0. -/
theorem C3_nan_scores_sanitized_witness :
    (get_accuracy_scores scoreFnW fdW 0 0 1 adjW [(0, 1)] [(0, 0)]).2 =
      Except.ok (metricsFromRec (scoreFnW (evalFeedDict fdW 0 0 1)) [(0, 1)] [(0, 0)]) ∧
    (labelsAll [(0, 1)].length [(0, 0)].length).length = [(0, 1)].length + [(0, 0)].length ∧
    (∀ i, (edgeScores (scoreFnW (evalFeedDict fdW 0 0 1)) [(0, 1)] ++
        edgeScores (scoreFnW (evalFeedDict fdW 0 0 1)) [(0, 0)]).get? i = some EFloat.nan →
      (predsAll (scoreFnW (evalFeedDict fdW 0 0 1)) [(0, 1)] [(0, 0)]).get? i = some 0) :=
  C3_nan_scores_sanitized scoreFnW fdW 0 0 1 adjW [(0, 1)] [(0, 0)]
    (by decide) (by decide)

/-! ## Stable-sort lemmas for the ranking in `get_accuracy_scores` -/

/-- Every non-NaN score is a rational value. -/
theorem efloat_val_of_ne_nan {p : EFloat} (h : p ≠ EFloat.nan) : ∃ q, p = EFloat.val q := by
  cases p with
  | nan => exact absurd rfl h
  | val q => exact ⟨q, rfl⟩

/-- Strict comparison of value scores is the rational order. -/
theorem egt_val_iff (a b : ℚ) : egt (EFloat.val a) (EFloat.val b) = true ↔ b < a := by
  simp [egt]

/-- Inserting an element permutes consing it. -/
theorem insertDesc_perm (x : EFloat × ℕ) (l : List (EFloat × ℕ)) :
    (insertDesc x l).Perm (x :: l) := by
  induction l with
  | nil => exact List.Perm.refl _
  | cons y ys ih =>
      by_cases hc : egt y.1 x.1 = true
      · simp only [insertDesc, hc, if_true]
        exact ((ih.cons y).trans (List.Perm.swap x y ys)).symm.symm
      · simp only [insertDesc, hc, Bool.false_eq_true, if_false]
        exact List.Perm.refl _

/-- The stable descending sort is a permutation of its input. -/
theorem sortDesc_perm (l : List (EFloat × ℕ)) : (sortDesc l).Perm l := by
  induction l with
  | nil => exact List.Perm.refl _
  | cons x t ih =>
      exact (insertDesc_perm x (sortDesc t)).trans (ih.cons x)

/-- Inserting an element whose original position precedes everything already
sorted preserves the descending-with-stable-ties ordering. -/
theorem insertDesc_pairwise (x : EFloat × ℕ) (l : List (EFloat × ℕ))
    (hx : x.1 ≠ EFloat.nan) (hl : ∀ p ∈ l, p.1 ≠ EFloat.nan)
    (hidx : ∀ p ∈ l, x.2 < p.2) (hp : l.Pairwise rankedBefore) :
    (insertDesc x l).Pairwise rankedBefore := by
  induction l with
  | nil => simp [insertDesc]
  | cons y ys ih =>
      obtain ⟨a, hxa⟩ := efloat_val_of_ne_nan hx
      obtain ⟨b, hyb⟩ := efloat_val_of_ne_nan (hl y (by simp))
      by_cases hc : egt y.1 x.1 = true
      · simp only [insertDesc, hc, if_true]
        refine List.Pairwise.cons ?_ ?_
        · intro z hz
          have hz2 : z ∈ x :: ys := (insertDesc_perm x ys).mem_iff.mp hz
          rcases List.mem_cons.mp hz2 with hzx | hzys
          · subst hzx
            exact Or.inl hc
          · exact List.rel_of_pairwise_cons hp hzys
        · exact ih (fun p hpm => hl p (by simp [hpm]))
            (fun p hpm => hidx p (by simp [hpm])) hp.of_cons
      · simp only [insertDesc, hc, if_false]
        have hba : b ≤ a := by
          rw [hxa, hyb] at hc
          simp [egt] at hc
          exact hc
        refine List.Pairwise.cons ?_ hp
        intro z hz
        rcases List.mem_cons.mp hz with hzy | hzys
        · subst hzy
          rcases lt_or_eq_of_le hba with hlt | heq
          · exact Or.inl (by rw [hxa, hyb]; exact (egt_val_iff a b).mpr hlt)
          · exact Or.inr ⟨by rw [hxa, hyb, heq], hidx z (by simp)⟩
        · obtain ⟨c, hzc⟩ := efloat_val_of_ne_nan (hl z (by simp [hzys]))
          have hyz := List.rel_of_pairwise_cons hp hzys
          have hxz2 : x.2 < z.2 := hidx z (by simp [hzys])
          rcases hyz with hgt | ⟨heq1, _⟩
          · rw [hyb, hzc] at hgt
            have hcb : c < b := (egt_val_iff b c).mp hgt
            exact Or.inl (by rw [hxa, hzc]; exact (egt_val_iff a c).mpr (lt_of_lt_of_le hcb hba))
          · have hcb : c = b := by
              rw [hyb, hzc] at heq1
              exact (EFloat.val.injEq c b).mp heq1.symm
            rcases lt_or_eq_of_le hba with hlt | heq
            · exact Or.inl (by rw [hxa, hzc, hcb]; exact (egt_val_iff a b).mpr hlt)
            · exact Or.inr ⟨by rw [hxa, hzc, hcb, heq], hxz2⟩

/-- On NaN-free inputs whose original indices strictly increase, the stable
descending sort is sorted for `rankedBefore`: scores descend and equal
scores keep insertion order. -/
theorem sortDesc_pairwise (l : List (EFloat × ℕ))
    (hl : ∀ p ∈ l, p.1 ≠ EFloat.nan)
    (hidx : l.Pairwise fun a b => a.2 < b.2) :
    (sortDesc l).Pairwise rankedBefore := by
  induction l with
  | nil => simp [sortDesc]
  | cons x t ih =>
      refine insertDesc_pairwise x (sortDesc t) (hl x (by simp)) ?_ ?_
        (ih (fun p hpm => hl p (by simp [hpm])) hidx.of_cons)
      · intro p hpm
        exact hl p (by simp [(sortDesc_perm t).mem_iff.mp hpm])
      · intro p hpm
        exact List.rel_of_pairwise_cons hidx ((sortDesc_perm t).mem_iff.mp hpm)

/-- The enumerated index components of `predicted` strictly increase. -/
theorem pairwise_idx_enumFrom (l : List EFloat) :
    ∀ n, List.Pairwise (fun p q : ℕ × EFloat => p.1 < q.1) (List.enumFrom n l) := by
  induction l with
  | nil => intro n; simp
  | cons x t ih =>
      intro n
      rw [List.enumFrom_cons]
      refine List.Pairwise.cons ?_ (ih (n + 1))
      intro q hq
      have := (List.mem_enumFrom (x := q.2) (i := q.1) (j := n + 1) (by simpa using hq)).1
      omega

/-- The `(score, edge_ind)` pairs of `predicted` have strictly increasing
indices. -/
theorem pairwise_idx_predictedPairs (scores : List EFloat) :
    (predictedPairs scores).Pairwise fun a b => a.2 < b.2 := by
  rw [predictedPairs, List.pairwise_map]
  have := pairwise_idx_enumFrom scores 0
  simpa [List.enum] using this

/-- Scores appearing in `predicted` come from the score list. -/
theorem predictedPairs_fst_mem (scores : List EFloat) (p : EFloat × ℕ)
    (hp : p ∈ predictedPairs scores) : p.1 ∈ scores := by
  rw [predictedPairs] at hp
  obtain ⟨q, hq, hqe⟩ := List.mem_map.mp hp
  have hq2 : q.2 ∈ scores := by
    rw [List.enum_eq_zip_range] at hq
    exact (List.of_mem_zip (by simpa using hq)).2
  rw [← hqe]
  exact hq2

/-! ## Claim theorem: C4 -/

/-- C4: the AP@k handed back by the evaluator is computed with fixed
`k = 50` over positives and negatives pooled into one candidate-index list
whose relevant set is exactly the positive indices `0 .. |pos| - 1`, and the
ranking is a permutation of the pooled `(score, index)` pairs ordered
descending by score with ties broken by insertion order (stable sort), so
positives precede equally-scored negatives. -/
theorem C4_apk_ranking_semantics (ps ns : List ℚ) :
    (sortDesc (predictedPairs (ps.map EFloat.val ++ ns.map EFloat.val))).Perm
      (predictedPairs (ps.map EFloat.val ++ ns.map EFloat.val)) ∧
    (sortDesc (predictedPairs (ps.map EFloat.val ++ ns.map EFloat.val))).Pairwise
      rankedBefore ∧
    (∀ scoreMat pos neg, (metricsFromRec scoreMat pos neg).apkSc =
      apk (List.range pos.length)
        (rankedIndices (edgeScores scoreMat pos ++ edgeScores scoreMat neg)) 50) := by
  refine ⟨sortDesc_perm _, ?_, fun _ _ _ => rfl⟩
  refine sortDesc_pairwise _ ?_ (pairwise_idx_predictedPairs _)
  intro p hpm
  have h1 : p.1 ∈ ps.map EFloat.val ++ ns.map EFloat.val :=
    predictedPairs_fst_mem _ p hpm
  rcases List.mem_append.mp h1 with h2 | h2 <;>
    obtain ⟨q, _, hq⟩ := List.mem_map.mp h2 <;> simp [← hq]

/-! ## Metric lemmas for perfect separation -/

/-- Zipping a constant-label list pairs the label with each score. -/
theorem zip_replicate_label (c : ℚ) (l : List ℚ) :
    (List.replicate l.length c).zip l = l.map fun x => (c, x) := by
  induction l with
  | nil => rfl
  | cons x t ih =>
      rw [List.length_cons, List.replicate_succ, List.zip_cons_cons, ih, List.map_cons]

/-- The positive-labelled scores of `labels_all`/`preds_all` are exactly the
positive score list. -/
theorem scoresWithLabel_one_append (ps ns : List ℚ) :
    scoresWithLabel 1 (labelsAll ps.length ns.length) (ps ++ ns) = ps := by
  rw [scoresWithLabel, labelsAll, List.zip_append (by simp),
    zip_replicate_label, zip_replicate_label, List.filter_append]
  have h1 : ((ps.map fun x => ((1 : ℚ), x)).filter fun p => decide (p.1 = 1)) =
      ps.map fun x => ((1 : ℚ), x) := by
    refine List.filter_eq_self.mpr ?_
    intro a ha
    obtain ⟨x, _, hx⟩ := List.mem_map.mp ha
    rw [← hx]
    simp
  have h2 : ((ns.map fun x => ((0 : ℚ), x)).filter fun p => decide (p.1 = 1)) = [] := by
    refine List.filter_eq_nil.mpr ?_
    intro a ha
    obtain ⟨x, _, hx⟩ := List.mem_map.mp ha
    rw [← hx]
    simp
  rw [h1, h2, List.append_nil, List.map_map]
  simp [Function.comp]

/-- The negative-labelled scores of `labels_all`/`preds_all` are exactly the
negative score list. -/
theorem scoresWithLabel_zero_append (ps ns : List ℚ) :
    scoresWithLabel 0 (labelsAll ps.length ns.length) (ps ++ ns) = ns := by
  rw [scoresWithLabel, labelsAll, List.zip_append (by simp),
    zip_replicate_label, zip_replicate_label, List.filter_append]
  have h1 : ((ps.map fun x => ((1 : ℚ), x)).filter fun p => decide (p.1 = 0)) = [] := by
    refine List.filter_eq_nil.mpr ?_
    intro a ha
    obtain ⟨x, _, hx⟩ := List.mem_map.mp ha
    rw [← hx]
    simp
  have h2 : ((ns.map fun x => ((0 : ℚ), x)).filter fun p => decide (p.1 = 0)) =
      ns.map fun x => ((0 : ℚ), x) := by
    refine List.filter_eq_self.mpr ?_
    intro a ha
    obtain ⟨x, _, hx⟩ := List.mem_map.mp ha
    rw [← hx]
    simp
  rw [h1, h2, List.nil_append, List.map_map]
  simp [Function.comp]

/-- Sum of a list whose mapped values are constant. -/
theorem list_sum_map_const {α : Type} (l : List α) (f : α → ℚ) (c : ℚ)
    (h : ∀ x ∈ l, f x = c) : (l.map f).sum = (l.length : ℚ) * c := by
  induction l with
  | nil => simp
  | cons x t ih =>
      rw [List.map_cons, List.sum_cons, ih (fun y hy => h y (by simp [hy])),
        h x (by simp), List.length_cons]
      push_cast
      ring

/-- Under strict separation the Mann-Whitney ROC area over the evaluator's
label layout is 1. -/
theorem rocAucScore_sep (ps ns : List ℚ) (hp : ps ≠ []) (hn : ns ≠ [])
    (sep : ∀ p ∈ ps, ∀ n ∈ ns, n < p) :
    rocAucScore (labelsAll ps.length ns.length) (ps ++ ns) = 1 := by
  simp only [rocAucScore, scoresWithLabel_one_append, scoresWithLabel_zero_append]
  have hinner : ∀ p ∈ ps, ((ns.map fun n => pairScore p n).sum) = (ns.length : ℚ) := by
    intro p hp2
    have hone : ∀ n ∈ ns, pairScore p n = 1 := by
      intro n hn2
      simp only [pairScore]
      rw [if_pos (sep p hp2 n hn2)]
    rw [list_sum_map_const ns (fun n => pairScore p n) 1 hone, mul_one]
  rw [list_sum_map_const ps _ ((ns.length : ℚ)) hinner]
  have hP : (ps.length : ℚ) ≠ 0 := Nat.cast_ne_zero.mpr (by
    intro h0
    exact hp (List.length_eq_zero.mp h0))
  have hN : (ns.length : ℚ) ≠ 0 := Nat.cast_ne_zero.mpr (by
    intro h0
    exact hn (List.length_eq_zero.mp h0))
  field_simp

/-- A descending list's last element is its minimum. -/
theorem getLast_le_of_sorted_desc :
    ∀ (l : List ℚ) (h : l ≠ []), List.Pairwise (fun a b : ℚ => b ≤ a) l →
      ∀ x ∈ l, l.getLast h ≤ x := by
  intro l
  induction l with
  | nil => intro h; exact absurd rfl h
  | cons a t ih =>
      intro h hp x hx
      cases t with
      | nil =>
          rcases List.mem_cons.mp hx with h1 | h1
          · subst h1; exact le_refl _
          · cases h1
      | cons b t2 =>
          rw [List.getLast_cons (List.cons_ne_nil b t2)]
          rcases List.mem_cons.mp hx with h1 | h1
          · subst h1
            exact List.rel_of_pairwise_cons hp (List.getLast_mem _)
          · exact ih (List.cons_ne_nil b t2) hp.of_cons x h1

/-- With every positive at or above the threshold, the true-positive count
is the whole positive list. -/
theorem tpCount_full (pos : List ℚ) (t : ℚ) (h : ∀ p ∈ pos, t ≤ p) :
    tpCount pos t = pos.length := by
  rw [tpCount, List.filter_eq_self.mpr (fun a ha => by simp [h a ha])]

/-- With every negative strictly below the threshold, the false-positive
count is zero. -/
theorem fpCount_zero (neg : List ℚ) (t : ℚ) (h : ∀ n ∈ neg, n < t) :
    fpCount neg t = 0 := by
  rw [fpCount, List.filter_eq_nil.mpr (fun a ha => by simp [not_le.mpr (h a ha)])]
  rfl

/-- Recall is 1 at a threshold at or below every positive. -/
theorem recallAt_full (pos : List ℚ) (t : ℚ) (hpos : pos ≠ [])
    (h : ∀ p ∈ pos, t ≤ p) : recallAt pos t = 1 := by
  rw [recallAt, tpCount_full pos t h]
  exact div_self (Nat.cast_ne_zero.mpr fun h0 => hpos (List.length_eq_zero.mp h0))

/-- Precision is 1 at a positive threshold above every negative. -/
theorem precAt_one (pos neg : List ℚ) (t : ℚ) (ht : t ∈ pos)
    (h : ∀ n ∈ neg, n < t) : precAt pos neg t = 1 := by
  rw [precAt, fpCount_zero neg t h]
  have htp : tpCount pos t ≠ 0 := by
    rw [tpCount]
    have : t ∈ pos.filter fun s => decide (t ≤ s) :=
      List.mem_filter.mpr ⟨ht, by simp⟩
    intro h0
    rw [List.length_eq_zero.mp h0] at this
    cases this
  have htpq : (tpCount pos t : ℚ) ≠ 0 := Nat.cast_ne_zero.mpr htp
  rw [Nat.cast_zero, add_zero]
  exact div_self htpq

/-- Once recall has reached 1 the remaining threshold steps contribute
nothing. -/
theorem apFold_recall_one (pos neg : List ℚ) :
    ∀ l : List ℚ, (∀ t ∈ l, recallAt pos t = 1) → apFold pos neg 1 l = 0 := by
  intro l
  induction l with
  | nil => intro _; rfl
  | cons t ts ih =>
      intro h
      rw [apFold, h t (by simp), ih (fun s hs => h s (by simp [hs]))]
      ring

/-- Telescoping: over a block of thresholds with precision 1 the step sum
collapses to the recall gained by the block's last threshold. -/
theorem apFold_prec_one (pos neg : List ℚ) (l2 : List ℚ) :
    ∀ (l1 : List ℚ) (h1 : l1 ≠ []) (pr : ℚ), (∀ t ∈ l1, precAt pos neg t = 1) →
      apFold pos neg pr (l1 ++ l2) =
        (recallAt pos (l1.getLast h1) - pr) +
          apFold pos neg (recallAt pos (l1.getLast h1)) l2 := by
  intro l1
  induction l1 with
  | nil => intro h1; exact absurd rfl h1
  | cons a t ih =>
      intro h1 pr hprec
      cases t with
      | nil =>
          rw [List.singleton_append, apFold, hprec a (by simp)]
          simp [List.getLast]
      | cons b t2 =>
          rw [List.cons_append, apFold, hprec a (by simp),
            ih (List.cons_ne_nil b t2) (recallAt pos a)
              (fun s hs => hprec s (by simp [hs])),
            List.getLast_cons (List.cons_ne_nil b t2)]
          ring

/-- Head of a `dropWhile` fails the predicate. -/
theorem dropWhile_head_false {α : Type} (p : α → Bool) :
    ∀ (l : List α) (y : α) (ys : List α), l.dropWhile p = y :: ys → p y = false := by
  intro l
  induction l with
  | nil => intro y ys h; cases h
  | cons a t ih =>
      intro y ys h
      rw [List.dropWhile_cons] at h
      by_cases ha : p a = true
      · rw [if_pos ha] at h
        exact ih y ys h
      · rw [if_neg ha] at h
        cases h
        exact Bool.not_eq_true _ |>.mp ha

/-- The descending distinct-threshold list is strictly descending. -/
theorem thresholdsDesc_strict (l : List ℚ) :
    List.Pairwise (fun a b : ℚ => b < a) (thresholdsDesc l) := by
  have hsorted : List.Pairwise (fun a b : ℚ => b ≤ a) (thresholdsDesc l) :=
    List.sorted_insertionSort _ _
  have hnodup : (thresholdsDesc l).Nodup :=
    (List.perm_insertionSort _ l.dedup).symm.nodup (List.nodup_dedup l)
  exact (hsorted.and hnodup).imp fun h => lt_of_le_of_ne h.1 (Ne.symm h.2)

/-- Membership in the threshold list is membership in the score list. -/
theorem mem_thresholdsDesc (l : List ℚ) (t : ℚ) :
    t ∈ thresholdsDesc l ↔ t ∈ l := by
  rw [thresholdsDesc, (List.perm_insertionSort _ l.dedup).mem_iff, List.mem_dedup]

/-- Under strict separation with at least one positive, the non-interpolated
average-precision step sum is exactly 1. -/
theorem apFold_thresholds_sep (pos neg : List ℚ) (hp : pos ≠ [])
    (sep : ∀ p ∈ pos, ∀ n ∈ neg, n < p) :
    apFold pos neg 0 (thresholdsDesc (pos ++ neg)) = 1 := by
  set th := thresholdsDesc (pos ++ neg) with hth
  set q : ℚ → Bool := fun t => decide (t ∈ pos) with hq
  have hsorted : List.Pairwise (fun a b : ℚ => b ≤ a) th :=
    List.sorted_insertionSort _ _
  have hstrict : List.Pairwise (fun a b : ℚ => b < a) th := thresholdsDesc_strict _
  have hmem : ∀ t, t ∈ th ↔ t ∈ pos ++ neg := fun t => mem_thresholdsDesc _ t
  have hdisj : ∀ x, x ∈ pos → x ∈ neg → False := fun x h1 h2 =>
    lt_irrefl x (sep x h1 x h2)
  have hl1pos : ∀ t ∈ th.takeWhile q, t ∈ pos := by
    intro t ht
    have := List.mem_takeWhile_imp ht
    rw [hq] at this
    exact of_decide_eq_true this
  have hl2neg : ∀ t ∈ th.dropWhile q, t ∈ neg := by
    intro t ht
    have htTh : t ∈ th := (List.dropWhile_sublist q).subset ht
    rcases List.mem_append.mp ((hmem t).mp htTh) with htp | htn
    · exfalso
      cases hdw : th.dropWhile q with
      | nil => rw [hdw] at ht; cases ht
      | cons y ys =>
          have hy : q y = false := dropWhile_head_false q th y ys hdw
          have hynp : y ∉ pos := by
            have hy2 : decide (y ∈ pos) = false := hy
            exact of_decide_eq_false hy2
          have hyTh : y ∈ th := (List.dropWhile_sublist q).subset (by
            rw [hdw]
            exact List.mem_cons_self y ys)
          have hyneg : y ∈ neg := by
            rcases List.mem_append.mp ((hmem y).mp hyTh) with h1 | h2
            · exact absurd h1 hynp
            · exact h2
          rw [hdw] at ht
          rcases List.mem_cons.mp ht with hty | htys
          · subst hty
            exact hynp htp
          · have hpw : List.Pairwise (fun a b : ℚ => b < a) (y :: ys) := by
              rw [← hdw]
              exact List.Pairwise.sublist (List.dropWhile_sublist q) hstrict
            have h3 : t < y := List.rel_of_pairwise_cons hpw htys
            have h4 : y < t := sep t htp y hyneg
            exact lt_irrefl t (h3.trans h4)
    · exact htn
  have hposl1 : ∀ p ∈ pos, p ∈ th.takeWhile q := by
    intro p hp2
    have hpTh : p ∈ th := (hmem p).mpr (List.mem_append.mpr (Or.inl hp2))
    rw [← List.takeWhile_append_dropWhile q th] at hpTh
    rcases List.mem_append.mp hpTh with h1 | h1
    · exact h1
    · exact absurd (hl2neg p h1) fun h2 => hdisj p hp2 h2
  have hl1ne : th.takeWhile q ≠ [] := by
    obtain ⟨p0, hp0⟩ := List.exists_mem_of_ne_nil pos hp
    intro hnil
    have := hposl1 p0 hp0
    rw [hnil] at this
    cases this
  have hlast_min : ∀ p ∈ pos, (th.takeWhile q).getLast hl1ne ≤ p := by
    intro p hp2
    exact getLast_le_of_sorted_desc _ hl1ne
      (List.Pairwise.sublist (List.takeWhile_sublist q) hsorted) p (hposl1 p hp2)
  have hrecall_last : recallAt pos ((th.takeWhile q).getLast hl1ne) = 1 :=
    recallAt_full _ _ hp hlast_min
  have hprec1 : ∀ t ∈ th.takeWhile q, precAt pos neg t = 1 := fun t ht =>
    precAt_one _ _ _ (hl1pos t ht) fun n hn2 => sep t (hl1pos t ht) n hn2
  have hrecl2 : ∀ t ∈ th.dropWhile q, recallAt pos t = 1 := by
    intro t ht
    refine recallAt_full _ _ hp ?_
    intro p hp2
    exact le_of_lt (sep p hp2 t (hl2neg t ht))
  calc apFold pos neg 0 th
      = apFold pos neg 0 (th.takeWhile q ++ th.dropWhile q) := by
        rw [List.takeWhile_append_dropWhile]
    _ = (recallAt pos ((th.takeWhile q).getLast hl1ne) - 0) +
          apFold pos neg (recallAt pos ((th.takeWhile q).getLast hl1ne))
            (th.dropWhile q) :=
        apFold_prec_one pos neg _ _ hl1ne 0 hprec1
    _ = 1 + apFold pos neg 1 (th.dropWhile q) := by rw [hrecall_last]; ring_nf
    _ = 1 + 0 := by rw [apFold_recall_one pos neg _ hrecl2]
    _ = 1 := by ring

/-- Under strict separation the model of sklearn average precision over the
evaluator's label layout is 1. -/
theorem averagePrecisionScore_sep (ps ns : List ℚ) (hp : ps ≠ [])
    (sep : ∀ p ∈ ps, ∀ n ∈ ns, n < p) :
    averagePrecisionScore (labelsAll ps.length ns.length) (ps ++ ns) = 1 := by
  simp only [averagePrecisionScore, scoresWithLabel_one_append,
    scoresWithLabel_zero_append]
  exact apFold_thresholds_sep ps ns hp sep

/-- A true strict comparison means both sides are values and the rationals
compare. -/
theorem egt_true_elim {x y : EFloat} (h : egt x y = true) :
    ∃ a b, x = EFloat.val a ∧ y = EFloat.val b ∧ b < a := by
  cases x with
  | nan => cases h
  | val a =>
      cases y with
      | nan => cases h
      | val b => exact ⟨a, b, rfl, rfl, of_decide_eq_true h⟩

/-! ## Claim theorem: C5 -/

/-- C5: the evaluator labels every positive edge 1 and every negative edge 0
in the combined label vector, and for any batch in which every positive
edge's score strictly exceeds every negative edge's score it returns
ROC-AUC = 1 and average precision = 1. -/
theorem C5_perfect_separation_metrics (scoreMat : ℕ → ℕ → EFloat)
    (pos neg : List (ℕ × ℕ)) (hp : pos ≠ []) (hn : neg ≠ [])
    (sep : ∀ e ∈ pos, ∀ e2 ∈ neg, egt (scoreMat e.1 e.2) (scoreMat e2.1 e2.2) = true) :
    labelsAll pos.length neg.length =
      List.replicate pos.length (1 : ℚ) ++ List.replicate neg.length (0 : ℚ) ∧
    (metricsFromRec scoreMat pos neg).roc = 1 ∧
    (metricsFromRec scoreMat pos neg).aupr = 1 := by
  set psQ := (edgeScores scoreMat pos).map nanToNum with hpsQ
  set nsQ := (edgeScores scoreMat neg).map nanToNum with hnsQ
  have hlenp : psQ.length = pos.length := by simp [hpsQ, edgeScores]
  have hlenn : nsQ.length = neg.length := by simp [hnsQ, edgeScores]
  have hPreds : predsAll scoreMat pos neg = psQ ++ nsQ := by
    rw [predsAll, List.map_append]
  have hmemP : ∀ p ∈ psQ, ∃ e ∈ pos, p = nanToNum (scoreMat e.1 e.2) := by
    intro p hpmem
    rw [hpsQ] at hpmem
    simp only [edgeScores, List.map_map] at hpmem
    obtain ⟨e, he, hee⟩ := List.mem_map.mp hpmem
    exact ⟨e, he, by rw [← hee]; rfl⟩
  have hmemN : ∀ n ∈ nsQ, ∃ e ∈ neg, n = nanToNum (scoreMat e.1 e.2) := by
    intro n hnmem
    rw [hnsQ] at hnmem
    simp only [edgeScores, List.map_map] at hnmem
    obtain ⟨e, he, hee⟩ := List.mem_map.mp hnmem
    exact ⟨e, he, by rw [← hee]; rfl⟩
  have hsepQ : ∀ p ∈ psQ, ∀ n ∈ nsQ, n < p := by
    intro p hpmem n hnmem
    obtain ⟨e, he, hpe⟩ := hmemP p hpmem
    obtain ⟨e2, he2, hne⟩ := hmemN n hnmem
    obtain ⟨a, b, hxa, hyb, hba⟩ := egt_true_elim (sep e he e2 he2)
    rw [hpe, hne, hxa, hyb]
    simpa [nanToNum] using hba
  have hpQ : psQ ≠ [] := by
    rw [hpsQ]
    simp only [edgeScores, List.map_map, ne_eq, List.map_eq_nil]
    exact hp
  have hnQ : nsQ ≠ [] := by
    rw [hnsQ]
    simp only [edgeScores, List.map_map, ne_eq, List.map_eq_nil]
    exact hn
  refine ⟨rfl, ?_, ?_⟩
  · show rocAucScore (labelsAll pos.length neg.length) (predsAll scoreMat pos neg) = 1
    rw [hPreds, ← hlenp, ← hlenn]
    exact rocAucScore_sep psQ nsQ hpQ hnQ hsepQ
  · show averagePrecisionScore (labelsAll pos.length neg.length)
      (predsAll scoreMat pos neg) = 1
    rw [hPreds, ← hlenp, ← hlenn]
    exact averagePrecisionScore_sep psQ nsQ hpQ hsepQ

/-- Witness for C5 at the spec's synthetic instance: positives (0,1), (1,2)
scored 0.9 and 0.8 against negatives (0,2), (2,0) scored 0.1 and 0.2 yield
ROC-AUC 1 and average precision 1. -/
theorem C5_perfect_separation_metrics_witness :
    labelsAll posW.length negW.length =
      List.replicate posW.length (1 : ℚ) ++ List.replicate negW.length (0 : ℚ) ∧
    (metricsFromRec scoreMatW posW negW).roc = 1 ∧
    (metricsFromRec scoreMatW posW negW).aupr = 1 :=
  C5_perfect_separation_metrics scoreMatW posW negW (by decide) (by decide)
    (by norm_num [posW, negW, scoreMatW, egt])

/-! ## Partitioner lemmas and claim theorem C1 -/

/-- The extracted positive edge list has no duplicates. -/
theorem extractEdges_nodup (adj : Mat) (nr nc : ℕ) (symmetric : Bool) :
    (extractEdges adj nr nc symmetric).Nodup :=
  ((List.nodup_range nr).product (List.nodup_range nc)).filter _

/-- The seeded shuffle is a permutation of its input. -/
theorem shuffleEdges_perm (seed : ℕ) (l : List (ℕ × ℕ)) :
    (shuffleEdges seed l).Perm l := by
  rw [shuffleEdges]
  have h1 := List.perm_insertionSort
    (fun a b : (ℕ × ℕ) × (ℕ × ℕ) => a.1.1 < b.1.1 ∨ (a.1.1 = b.1.1 ∧ a.1.2 ≤ b.1.2))
    (l.enum.map fun p => ((lcgKey seed p.1, p.1), p.2))
  refine (h1.map fun p : (ℕ × ℕ) × (ℕ × ℕ) => p.2).trans ?_
  rw [List.map_map,
    show ((fun p : (ℕ × ℕ) × (ℕ × ℕ) => p.2) ∘
      fun p : ℕ × (ℕ × ℕ) => ((lcgKey seed p.1, p.1), p.2)) =
      (Prod.snd : ℕ × (ℕ × ℕ) → ℕ × ℕ) from rfl,
    List.enum_map_snd]

/-- Invariant of the rejection sampler: on success it returns exactly the
requested number of pairs, every returned pair is a non-edge or came from
the accumulator, and no duplicates are introduced. -/
theorem sampleNegatives_spec (adj : Mat) (stream : ℕ → ℕ × ℕ) :
    ∀ (fuel idx need : ℕ) (acc l : List (ℕ × ℕ)),
      sampleNegatives adj stream fuel idx need acc = some l →
      l.length = need + acc.length ∧ (∀ e ∈ l, adj e.1 e.2 = 0 ∨ e ∈ acc) ∧
      (acc.Nodup → l.Nodup) := by
  intro fuel
  induction fuel with
  | zero =>
      intro idx need acc l h
      cases need with
      | zero =>
          simp only [sampleNegatives] at h
          injection h with h2
          subst h2
          refine ⟨by simp, ?_, fun hn => by simpa using hn⟩
          intro e he
          exact Or.inr (List.mem_reverse.mp he)
      | succ n =>
          simp only [sampleNegatives] at h
          exact Option.noConfusion h
  | succ fuel ih =>
      intro idx need acc l h
      cases need with
      | zero =>
          simp only [sampleNegatives] at h
          injection h with h2
          subst h2
          refine ⟨by simp, ?_, fun hn => by simpa using hn⟩
          intro e he
          exact Or.inr (List.mem_reverse.mp he)
      | succ n =>
          simp only [sampleNegatives] at h
          by_cases hc : adj (stream idx).1 (stream idx).2 = 0 ∧ stream idx ∉ acc
          · rw [if_pos hc] at h
            obtain ⟨hlen, hmem, hnd⟩ := ih (idx + 1) n (stream idx :: acc) l h
            refine ⟨by rw [List.length_cons] at hlen; omega, ?_, ?_⟩
            · intro e he
              rcases hmem e he with h0 | hmemc
              · exact Or.inl h0
              · rcases List.mem_cons.mp hmemc with h1 | h1
                · exact Or.inl (h1 ▸ hc.1)
                · exact Or.inr h1
            · intro hna
              exact hnd (List.nodup_cons.mpr ⟨hc.2, hna⟩)
          · rw [if_neg hc] at h
            exact ih (idx + 1) (n + 1) acc l h

/-- C1: on success the modelled partitioner's train/validation/test
positives are pairwise disjoint, their concatenation is a permutation of
the extracted positive set (so the cardinalities sum exactly, with zero
exclusions), and each split's negative set has the same cardinality as its
positive set with every sampled negative absent from the adjacency. -/
theorem C1_edge_split_integrity (adj : Mat) (nr nc : ℕ) (symmetric : Bool)
    (seed fNum fDen : ℕ) (streamTrain streamVal streamTest : ℕ → ℕ × ℕ)
    (fuel : ℕ) (s : EdgeSplit)
    (h : makeEdgeSplit adj nr nc symmetric seed fNum fDen
      streamTrain streamVal streamTest fuel = some s) :
    (s.valPos ++ s.testPos ++ s.trainPos).Perm (extractEdges adj nr nc symmetric) ∧
    s.trainPos.length + s.valPos.length + s.testPos.length =
      (extractEdges adj nr nc symmetric).length ∧
    s.trainPos.Disjoint s.valPos ∧ s.trainPos.Disjoint s.testPos ∧
    s.valPos.Disjoint s.testPos ∧
    s.trainNeg.length = s.trainPos.length ∧ s.valNeg.length = s.valPos.length ∧
    s.testNeg.length = s.testPos.length ∧
    (∀ e ∈ s.trainNeg ++ s.valNeg ++ s.testNeg, adj e.1 e.2 = 0) := by
  unfold makeEdgeSplit at h
  set edges := posEdgesOf adj nr nc symmetric seed with hedges
  set nv := nValOf fNum fDen edges.length with hnv
  have hperm : edges.Perm (extractEdges adj nr nc symmetric) := by
    rw [hedges, posEdgesOf]
    exact shuffleEdges_perm _ _
  have hnodup : edges.Nodup := hperm.symm.nodup (extractEdges_nodup adj nr nc symmetric)
  have hsplit3 : edges.take nv ++ ((edges.drop nv).take nv ++ edges.drop (nv + nv)) =
      edges := by
    have h2 : (edges.drop nv).drop nv = edges.drop (nv + nv) := List.drop_drop nv nv edges
    rw [← h2, List.take_append_drop, List.take_append_drop]
  cases e1 : sampleNegatives adj streamTrain fuel 0 (edges.drop (nv + nv)).length [] with
  | none =>
      rw [e1] at h
      exact Option.noConfusion h
  | some tn =>
      cases e2 : sampleNegatives adj streamVal fuel 0 (edges.take nv).length [] with
      | none =>
          rw [e1, e2] at h
          exact Option.noConfusion h
      | some vn =>
          cases e3 : sampleNegatives adj streamTest fuel 0
              ((edges.drop nv).take nv).length [] with
          | none =>
              rw [e1, e2, e3] at h
              exact Option.noConfusion h
          | some sn =>
              rw [e1, e2, e3] at h
              injection h with h4
              subst h4
              dsimp only
              obtain ⟨hl1, hm1, _⟩ :=
                sampleNegatives_spec adj streamTrain fuel 0 _ [] tn e1
              obtain ⟨hl2, hm2, _⟩ :=
                sampleNegatives_spec adj streamVal fuel 0 _ [] vn e2
              obtain ⟨hl3, hm3, _⟩ :=
                sampleNegatives_spec adj streamTest fuel 0 _ [] sn e3
              have hperm2 : ((edges.take nv ++ (edges.drop nv).take nv) ++
                  edges.drop (nv + nv)).Perm (extractEdges adj nr nc symmetric) := by
                rw [List.append_assoc, hsplit3]
                exact hperm
              have hnodup3 : (edges.take nv ++ ((edges.drop nv).take nv ++
                  edges.drop (nv + nv))).Nodup := by
                rw [hsplit3]
                exact hnodup
              have d1 : (edges.take nv).Disjoint
                  ((edges.drop nv).take nv ++ edges.drop (nv + nv)) :=
                List.disjoint_of_nodup_append hnodup3
              have d2 : ((edges.drop nv).take nv).Disjoint (edges.drop (nv + nv)) :=
                List.disjoint_of_nodup_append hnodup3.of_append_right
              refine ⟨hperm2, ?_, ?_, ?_, ?_, by simpa using hl1, by simpa using hl2,
                by simpa using hl3, ?_⟩
              · have := hperm2.length_eq
                simp only [List.length_append] at this
                omega
              · intro a ha hb
                exact d1 hb (List.mem_append.mpr (Or.inr ha))
              · intro a ha hb
                exact d2 hb ha
              · intro a ha hb
                exact d1 ha (List.mem_append.mpr (Or.inl hb))
              · intro e he
                rcases List.mem_append.mp he with h5 | h5
                · rcases List.mem_append.mp h5 with h7 | h7
                  · rcases hm1 e h7 with h6 | h6
                    · exact h6
                    · cases h6
                  · rcases hm2 e h7 with h6 | h6
                    · exact h6
                    · cases h6
                · rcases hm3 e h5 with h6 | h6
                  · exact h6
                  · cases h6

/-- Witness for C1: a symmetric 2-node relation with one edge, zero held-out
fraction and a stream proposing the non-edge (0, 0) yields the expected
split, and the theorem's guarantees hold for it. -/
theorem C1_edge_split_integrity_witness :
    makeEdgeSplit adjC1 2 2 true 0 0 20 stC1 stC1 stC1 3 = some sC1 ∧
    ((sC1.valPos ++ sC1.testPos ++ sC1.trainPos).Perm (extractEdges adjC1 2 2 true) ∧
    sC1.trainPos.length + sC1.valPos.length + sC1.testPos.length =
      (extractEdges adjC1 2 2 true).length ∧
    sC1.trainPos.Disjoint sC1.valPos ∧ sC1.trainPos.Disjoint sC1.testPos ∧
    sC1.valPos.Disjoint sC1.testPos ∧
    sC1.trainNeg.length = sC1.trainPos.length ∧ sC1.valNeg.length = sC1.valPos.length ∧
    sC1.testNeg.length = sC1.testPos.length ∧
    (∀ e ∈ sC1.trainNeg ++ sC1.valNeg ++ sC1.testNeg, adjC1 e.1 e.2 = 0)) :=
  ⟨by decide,
   C1_edge_split_integrity adjC1 2 2 true 0 0 20 stC1 stC1 stC1 3 sC1 (by decide)⟩

/-! ## Training-loop lemmas and claim theorem C9 -/

/-- The operational while loop equals the enumerated declarative trace,
for any starting iteration counter. -/
theorem epochLoop_eq_enumFrom (p : ℕ) :
    ∀ (bs : List (ℕ × ℕ × ℕ)) (i : ℕ),
      epochLoop p i bs = (List.enumFrom i bs).flatMap fun q =>
        TrainEvent.drawBatch q.2 :: TrainEvent.optStep ::
          (if q.1 % p = 0 then [TrainEvent.valEval q.2] else []) := by
  intro bs
  induction bs with
  | nil => intro i; rfl
  | cons r rest ih =>
      intro i
      rw [List.enumFrom_cons, List.flatMap_cons, epochLoop, ih (i + 1)]
      simp [List.cons_append]

/-- The inner loop never emits a shuffle event: shuffling happens exactly
once per epoch, before any batch is drawn. -/
theorem epochLoop_count_shuffle (p : ℕ) :
    ∀ (bs : List (ℕ × ℕ × ℕ)) (i : ℕ),
      (epochLoop p i bs).count TrainEvent.shuffleEv = 0 := by
  intro bs
  induction bs with
  | nil => intro i; rfl
  | cons r rest ih =>
      intro i
      simp only [epochLoop, List.count_cons, List.count_append, ih (i + 1)]
      split <;> simp

/-- C9: the training trace is, per epoch, exactly one shuffle followed by
the declarative batch trace — one draw and one optimization step per batch,
with validation metrics evaluated at every iteration divisible by
`PRINT_PROGRESS_EVERY = 150` (in particular iteration 0 of every epoch) and
always for the relation of the batch just drawn — and after all epochs a
test evaluation for every edge-type index `0 .. num_edge_types - 1` in
order. -/
theorem C9_training_loop_structure (epochs : ℕ) (batches : ℕ → List (ℕ × ℕ × ℕ))
    (numEdgeTypes : ℕ) :
    runTraining epochs batches numEdgeTypes =
      ((List.range epochs).flatMap fun e =>
        TrainEvent.shuffleEv :: epochSpec printProgressEvery (batches e)) ++
      (List.range numEdgeTypes).map TrainEvent.testEval ∧
    (∀ (bs : List (ℕ × ℕ × ℕ)) (i : ℕ),
      (epochLoop printProgressEvery i bs).count TrainEvent.shuffleEv = 0) ∧
    (∀ rel rest, epochLoop printProgressEvery 0 (rel :: rest) =
      TrainEvent.drawBatch rel :: TrainEvent.optStep :: TrainEvent.valEval rel ::
        epochLoop printProgressEvery 1 rest) ∧
    printProgressEvery = 150 := by
  have hsp : ∀ bs, epochLoop printProgressEvery 0 bs = epochSpec printProgressEvery bs := by
    intro bs
    rw [epochLoop_eq_enumFrom, epochSpec, List.enum]
  refine ⟨?_, epochLoop_count_shuffle printProgressEvery, ?_, rfl⟩
  · simp only [runTraining, hsp]
  · intro rel rest
    simp [epochLoop]
